import Mathlib

/-!
Verification of the face-division core of the carve CSG library
(lib/intersect_face_division.cpp). Vertices are pointer handles modelled as
naturals; the external geometry kernel (projector, orient2d, signedArea,
point classification) is modelled from its specification over exact rational
scalars, and the two services whose behaviour is not expressible in exact
arithmetic (the atan2-driven loop extraction of splitFace and the 2D hole
stitcher) are abstracted as oracle parameters. All other functions are
direct translations of the source, with while loops given explicit
sufficient fuel.
-/

namespace Carve

/-- Vertex handles. The source identifies vertices by pointer; we model the
pointer pool by natural numbers (pointer comparison becomes comparison on ℕ). -/
abbrev V := ℕ

/-- Exact rational scalars used for projected coordinates and areas: an
integer numerator over a denominator kept positive by every constructor
below, compared by cross-multiplication. A fraction type is used instead of
Mathlib's normalised rationals so that every geometric predicate evaluates
inside the kernel; the denotation is the ordinary rational num/den. -/
structure Frac where
  num : ℤ
  den : ℤ
deriving DecidableEq

/-- Embed an integer as an exact scalar. -/
def Frac.ofInt (n : ℤ) : Frac := ⟨n, 1⟩

/-- Addition of exact scalars. -/
def Frac.add (a b : Frac) : Frac := ⟨a.num * b.den + b.num * a.den, a.den * b.den⟩

/-- Subtraction of exact scalars. -/
def Frac.sub (a b : Frac) : Frac := ⟨a.num * b.den - b.num * a.den, a.den * b.den⟩

/-- Multiplication of exact scalars. -/
def Frac.mul (a b : Frac) : Frac := ⟨a.num * b.num, a.den * b.den⟩

/-- Halving an exact scalar (the one division the module performs). -/
def Frac.half (a : Frac) : Frac := ⟨a.num, a.den * 2⟩

/-- Order on exact scalars (valid for positive denominators). -/
def Frac.lt (a b : Frac) : Prop := a.num * b.den < b.num * a.den

/-- Non-strict order on exact scalars (valid for positive denominators). -/
def Frac.le (a b : Frac) : Prop := a.num * b.den ≤ b.num * a.den

instance : LT Frac := ⟨Frac.lt⟩

instance : LE Frac := ⟨Frac.le⟩

instance : DecidableRel (fun a b : Frac => a < b) := fun a b =>
  inferInstanceAs (Decidable (a.num * b.den < b.num * a.den))

instance : DecidableRel (fun a b : Frac => a ≤ b) := fun a b =>
  inferInstanceAs (Decidable (a.num * b.den ≤ b.num * a.den))

/-- The zero scalar. -/
def fzero : Frac := ⟨0, 1⟩

/-- Minimum of two exact scalars. -/
def fmin (a b : Frac) : Frac := if a < b then a else b

/-- Maximum of two exact scalars. -/
def fmax (a b : Frac) : Frac := if a < b then b else a

/-- Projected 2D points (carve geom2d P2), with exact coordinates. -/
abbrev P2 := Frac × Frac

/-- A projected point with integer coordinates. -/
def fp (x y : ℤ) : P2 := (Frac.ofInt x, Frac.ofInt y)

/-- Modelled from the spec: orient2d(a,b,c) is the signed twice-area of the
triangle abc (geometry-kernel primitive, not part of the source file). -/
def orient2d (a b c : P2) : Frac :=
  Frac.sub (Frac.mul (Frac.sub b.1 a.1) (Frac.sub c.2 a.2))
           (Frac.mul (Frac.sub b.2 a.2) (Frac.sub c.1 a.1))

/-- Modelled from the spec: signedArea of a closed projected polygon, one half
of the cyclic shoelace sum (geometry-kernel primitive). -/
def signedArea (ps : List P2) : Frac :=
  match ps with
  | [] => fzero
  | p :: rest =>
    Frac.half ((((p :: rest).zip (rest ++ [p])).map
      (fun q => Frac.sub (Frac.mul q.1.1 q.2.2) (Frac.mul q.2.1 q.1.2))).foldr Frac.add fzero)

/-- Modelled from the spec: lexicographic comparison of projected points
(the tiebreak used by internalToAngle for its reflex test). -/
def p2ltb (a b : P2) : Bool :=
  if a.1 < b.1 then true
  else if b.1 < a.1 then false
  else decide (a.2 < b.2)

/-- Direct translation of internalToAngle (intersect_face_division.cpp,
lines 789-805): is p inside the interior sector of the polygon angle a-b-c? -/
def internalToAngle (a b c p : P2) : Bool :=
  let reflex : Bool :=
    if p2ltb a c then decide (orient2d a b c ≤ fzero) else decide (fzero ≤ orient2d c b a)
  if reflex then
    decide (fzero ≤ orient2d a b p) || decide (fzero ≤ orient2d b c p)
  else
    decide (fzero < orient2d a b p) && decide (fzero < orient2d b c p)

/-- Point classification returned by the geometry kernel's pointInPoly
(modelled from the spec; only membership of the OUTSIDE class is consumed). -/
inductive PClass where
  | pOut
  | pOn
  | pIn
deriving DecidableEq

/-- Modelled from the spec: a 2D axis-aligned bounding box. -/
structure Aabb where
  lo : P2
  hi : P2

/-- Modelled from the spec: fit an aabb around a list of projected points. -/
def fitAabb (ps : List P2) : Aabb :=
  match ps with
  | [] => ⟨fp 0 0, fp 0 0⟩
  | p :: rest =>
    rest.foldl
      (fun box q =>
        ⟨(fmin box.lo.1 q.1, fmin box.lo.2 q.2), (fmax box.hi.1 q.1, fmax box.hi.2 q.2)⟩)
      ⟨p, p⟩

/-- Modelled from the spec: aabb/point intersection test. -/
def aabbContains (box : Aabb) (p : P2) : Bool :=
  decide (box.lo.1 ≤ p.1) && decide (p.1 ≤ box.hi.1) &&
  decide (box.lo.2 ≤ p.2) && decide (p.2 ≤ box.hi.2)

/-- The ordered_edge constructor of csg_detail: an unordered vertex pair
stored with the smaller handle first. -/
def orderedEdge (a b : V) : V × V := if a ≤ b then (a, b) else (b, a)

/-- Sorted set insertion on vertex-pair lists, mirroring std::set of pairs
(V2Set): lexicographic order, duplicates collapsed. -/
def insertPair : List (V × V) → V × V → List (V × V)
  | [], e => [e]
  | f :: rest, e =>
    if e = f then f :: rest
    else if e.1 < f.1 ∨ (e.1 = f.1 ∧ e.2 < f.2) then e :: f :: rest
    else f :: insertPair rest e

/-- Sorted set insertion on vertex lists, mirroring std::set of vertex
pointers (VSet). -/
def insertV : List V → V → List V
  | [], v => [v]
  | w :: rest, v =>
    if v = w then w :: rest
    else if v < w then v :: w :: rest
    else w :: insertV rest v

end Carve


namespace Carve

/-- Neighbour list of v in the remaining undirected edge list (the adjacency
sets of composeEdgesIntoPaths' vertex_graph, VVSMap). -/
def neighbors (v : V) (rem : List (V × V)) : List V :=
  rem.filterMap (fun e =>
    if e.1 = v then some e.2 else if e.2 = v then some e.1 else none)

/-- Minimum of a vertex list; models picking begin() of a std::set of
vertex pointers. -/
def minV : List V → Option V
  | [] => none
  | a :: t =>
    match minV t with
    | none => some a
    | some b => some (min a b)

/-- Erase one exact edge record from the remaining edge list (the link
removal of composeEdgesIntoPaths). -/
def eraseEdge : List (V × V) → (V × V) → List (V × V)
  | [], _ => []
  | f :: rest, e => if f = e then rest else f :: eraseEdge rest e

/-- Path-phase walker of composeEdgesIntoPaths (lines 1155-1184): starting
at v, repeatedly move to the smallest remaining neighbour, erasing the
traversed link; stop on returning to the start, on reaching a vertex with no
remaining links, or on reaching an endpoint. Fuel-indexed (one unit per
consumed edge). -/
def walkP (eps : List V) (start : V) : ℕ → V → List (V × V) → List V × List (V × V)
  | 0, v, rem => ([v], rem)
  | f + 1, v, rem =>
    match minV (neighbors v rem) with
    | none => ([v], rem)
    | some n =>
      let rem' := eraseEdge rem (orderedEdge v n)
      if n = start ∨ n ∈ eps ∨ neighbors n rem' = [] then
        ([v, n], rem')
      else
        let r := walkP eps start f n rem'
        (v :: r.1, r.2)

/-- Path phase of composeEdgesIntoPaths (lines 1147-1188): while the endpoint
set is non-empty, take its least element; if it still has edges walk a path
from it, otherwise discard it. Fuel-indexed. -/
def pathPhase : ℕ → List V → List (V × V) → List (List V) × List (V × V)
  | 0, _, rem => ([], rem)
  | f + 1, eps, rem =>
    match eps with
    | [] => ([], rem)
    | v :: eps' =>
      if neighbors v rem = [] then pathPhase f eps' rem
      else
        let w := walkP (v :: eps') v rem.length v rem
        let r := pathPhase f (v :: eps') w.2
        (w.1 :: r.1, r.2)

/-- Loop-phase walker of composeEdgesIntoPaths (lines 1202-1223): like the
path walker but the only stopping condition is returning to the start (the
source asserts remaining degrees are 2; an empty neighbour list stops the
model where the source would assert). -/
def walkL (start : V) : ℕ → V → List (V × V) → List V × List (V × V)
  | 0, v, rem => ([v], rem)
  | f + 1, v, rem =>
    match minV (neighbors v rem) with
    | none => ([v], rem)
    | some n =>
      let rem' := eraseEdge rem (orderedEdge v n)
      if n = start then ([v, n], rem')
      else
        let r := walkL start f n rem'
        (v :: r.1, r.2)

/-- Vertices occurring in an edge list, in order of occurrence. -/
def domainOf (E : List (V × V)) : List V :=
  E.foldr (fun e acc => e.1 :: e.2 :: acc) []

/-- Least vertex of a non-empty remaining graph (vertex_graph.begin()). -/
def minVertexOf (rem : List (V × V)) : V :=
  (minV (domainOf rem)).getD 0

/-- Loop phase of composeEdgesIntoPaths (lines 1193-1226): while edges
remain, walk a closed loop from the least remaining vertex. Fuel-indexed. -/
def loopPhase : ℕ → List (V × V) → List (List V)
  | 0, _ => []
  | f + 1, rem =>
    match rem with
    | [] => []
    | _ :: _ =>
      let v := minVertexOf rem
      let w := walkL v rem.length v rem
      w.1 :: loopPhase f w.2

/-- Degree of a vertex in the undirected edge graph. -/
def degreeIn (E : List (V × V)) (v : V) : ℕ := (neighbors v E).length

/-- Endpoint set of composeEdgesIntoPaths (lines 1134-1145): vertices of the
adjacency map whose degree is not 2, plus extra endpoints that occur in the
adjacency map. Kept as a sorted duplicate-free list (std::set). -/
def endpointsOf (E : List (V × V)) (X : List V) : List V :=
  let s := (domainOf E).foldl
    (fun s v => if degreeIn E v ≠ 2 then insertV s v else s) []
  X.foldl (fun s v => if neighbors v E ≠ [] then insertV s v else s) s

/-- Translation of composeEdgesIntoPaths (lines 1115-1228): contract the
edge set into maximal paths between endpoints, then closed loops. -/
def composeEdgesIntoPaths (E : List (V × V)) (X : List V) :
    List (List V) × List (List V) :=
  let eps := endpointsOf E X
  let pp := pathPhase (E.length + eps.length) eps E
  (pp.1, loopPhase pp.2.length pp.2)

/-- Unordered edges traversed by a path, each normalised. -/
def pathPairs : List V → List (V × V)
  | a :: b :: rest => orderedEdge a b :: pathPairs (b :: rest)
  | _ => []

/-- All unordered edges traversed by a list of paths. -/
def pairsConcat (ls : List (List V)) : List (V × V) :=
  ls.foldr (fun l acc => pathPairs l ++ acc) []

end Carve


namespace Carve

/-- The crossing_data record (lines 775-785): a path together with the two
base-loop indices its endpoints were attached to. -/
structure crossing_data where
  path : List V
  e0 : ℕ
  e1 : ℕ
deriving DecidableEq

/-- The strict comparison crossing_data::operator< (lines 782-784):
first index ascending, second index descending. -/
def crossLT (a b : crossing_data) : Prop :=
  a.e0 < b.e0 ∨ (a.e0 = b.e0 ∧ b.e1 < a.e1)

instance : DecidableRel crossLT := fun a b => by
  unfold crossLT
  infer_instance

/-- The non-strict order induced by crossLT, used to state sortedness of
std::sort's output. -/
def crossLE (a b : crossing_data) : Prop := ¬ crossLT b a

instance : DecidableRel crossLE := fun a b => by
  unfold crossLE
  infer_instance

/-- The adjacent interior vertex used by the angular dispatch
(lines 841 and 864): the second path vertex when the path starts at the
perimeter vertex, else the second-to-last. -/
def adjFor (base : List V) (p : List V) (i : ℕ) : V :=
  if p.headI = base.getD i 0 then p.getD 1 0 else p.getD (p.length - 2) 0

/-- The angular-inclusion test at base-loop index i for a path p
(lines 836-846): is the projection of p's adjacent vertex inside the interior
sector of the perimeter angle at base[i]? -/
def passAt (proj : V → P2) (base : List V) (p : List V) (i : ℕ) : Bool :=
  let n := base.length
  internalToAngle
    (proj (base.getD ((i + n - 1) % n) 0))
    (proj (base.getD i 0))
    (proj (base.getD ((i + 1) % n) 0))
    (proj (adjFor base p i))

/-- The vertex at base-loop index i equals the target (the pointer
comparison paths[j].front() == base_loop[i] of the source). -/
def vertAt (base : List V) (i : ℕ) (target : V) : Prop :=
  base.getD i 0 = target

instance (base : List V) (i : ℕ) (target : V) : Decidable (vertAt base i target) :=
  inferInstanceAs (Decidable (_ = _))

/-- One step of the endpoint-location scan (lines 826-875): at index i, the
first index holding the target vertex is recorded unconditionally, and each
later index holding it replaces the record iff the angular-inclusion test
passes there. -/
def locStep (base : List V) (target : V) (pass : ℕ → Bool) (acc i : ℕ) : ℕ :=
  if vertAt base i target then
    if acc = base.length then i
    else if pass i then i else acc
  else acc

/-- The endpoint-location scan of processCrossingEdges (lines 826-875) for
one endpoint: fold the location step over base-loop indices in ascending
order, starting from the not-found sentinel N. -/
def locateScan (base : List V) (target : V) (pass : ℕ → Bool) : ℕ :=
  (List.range base.length).foldl (locStep base target pass) base.length

/-- Endpoint location for a whole path: attach its front and its back on the
base loop (or base.length when absent). -/
def locatePath (proj : V → P2) (base : List V) (p : List V) : crossing_data :=
  ⟨p, locateScan base p.headI (passAt proj base p),
      locateScan base p.getLastI (passAt proj base p)⟩

/-- The per-path normalisation of processCrossingEdges (lines 883-895): a path
attached twice to the same index is oriented to non-negative signed area
(dropping its first vertex, as in the source); otherwise if the indices are
out of order they are swapped and the path reversed. -/
def orientTransform (proj : V → P2) (c : crossing_data) : crossing_data :=
  if c.e0 = c.e1 then
    if signedArea ((c.path.drop 1).map proj) < fzero then
      ⟨c.path.reverse, c.e0, c.e1⟩
    else c
  else if c.e1 < c.e0 then ⟨c.path.reverse, c.e1, c.e0⟩
  else c

/-- The synthetic crossing connecting the beginning and end of the base loop
(lines 908-913). -/
def syntheticCrossing (base : List V) : crossing_data :=
  ⟨[base.headI, base.getLastI], 0, base.length - 1⟩

/-- Steps A-C of processCrossingEdges after endpoint location
(lines 879-917): normalise each crossing, partition into crossing and
non-crossing paths, append the synthetic whole-boundary crossing, and sort
both lists with crossing_data::operator<. -/
def prepareCross (proj : V → P2) (base : List V) (eis : List crossing_data) :
    List crossing_data × List crossing_data :=
  let ts := eis.map (orientTransform proj)
  let cross := (ts.filter (fun c => c.e1 ≠ base.length)) ++ [syntheticCrossing base]
  let noncross := ts.filter (fun c => c.e1 = base.length)
  (cross.insertionSort crossLE, noncross.insertionSort crossLE)

/-- Area key ordering used when several crossings share both indices
(lines 941-949): sort paths by decreasing signed area. -/
def areaGE (proj : V → P2) (p q : List V) : Prop :=
  signedArea (q.map proj) ≤ signedArea (p.map proj)

instance (proj : V → P2) : DecidableRel (areaGE proj) := fun p q => by
  unfold areaGE
  infer_instance

/-- The group reordering of processCrossingEdges (lines 924-954): within each
maximal run of crossings sharing both indices, reorder the paths by
decreasing signed area. Fuel-indexed on the list length. -/
def orderGroups (proj : V → P2) : ℕ → List crossing_data → List crossing_data
  | 0, _ => []
  | _ + 1, [] => []
  | f + 1, c :: rest =>
    let grp := c :: rest.takeWhile (fun d => d.e0 = c.e0 && d.e1 = c.e1)
    let rest' := rest.dropWhile (fun d => d.e0 = c.e0 && d.e1 = c.e1)
    let grp' :=
      if 2 ≤ grp.length then
        ((grp.map crossing_data.path).insertionSort (areaGE proj)).map
          (fun p => crossing_data.mk p c.e0 c.e1)
      else grp
    grp' ++ orderGroups proj f rest'

/-- std::copy(base.begin()+a, base.begin()+b, out): the slice [a, b). -/
def sliceFT (base : List V) (a b : ℕ) : List V := (base.take b).drop a

/-- The skip-advance of the nested division case (lines 987-989): increment
skip, then keep incrementing while the crossing there starts before e2_1. -/
def advanceSkip (cs : List crossing_data) (e2_1 : ℕ) : ℕ → ℕ → ℕ
  | 0, skip => skip + 1
  | f + 1, skip =>
    let skip' := skip + 1
    match cs.get? skip' with
    | none => skip'
    | some c => if c.e0 < e2_1 then advanceSkip cs e2_1 f skip' else skip'

/-- The nested-crossing copy loop (lines 970-995): returns the vertices
copied and the final value of pos. Fuel-indexed. -/
def complexLoop (base : List V) (cs : List crossing_data) (e1_1 : ℕ) :
    ℕ → ℕ → ℕ → List V × ℕ
  | 0, pos, _ => ([], pos)
  | f + 1, pos, skip =>
    if pos = e1_1 then ([], pos)
    else
      match cs.get? skip with
      | none => ([], pos)
      | some c2 =>
        let seg := sliceFT base pos c2.e0 ++ c2.path.dropLast
        let skip' := advanceSkip cs c2.e1 cs.length skip
        if skip' = cs.length then (seg, c2.e1)
        else if e1_1 ≤ ((cs.get? skip').getD (syntheticCrossing base)).e0 then
          (seg, c2.e1)
        else
          let r := complexLoop base cs e1_1 f c2.e1 skip'
          (seg ++ r.1, r.2)

/-- Division of the base loop by the sorted crossings (lines 956-1012):
either the simple copy or the nested-crossing walk, for each crossing in
order. Fuel-indexed iteration over the crossing index i. -/
def divideAux (base : List V) (cs : List crossing_data) : ℕ → ℕ → List (List V)
  | 0, _ => []
  | f + 1, i =>
    match cs.get? i with
    | none => []
    | some c =>
      let out :=
        if i + 1 < cs.length ∧ ((cs.get? (i+1)).getD (syntheticCrossing base)).e0 < c.e1 then
          let r := complexLoop base cs c.e1 cs.length c.e0 (i + 1)
          r.1 ++ sliceFT base r.2 c.e1 ++ c.path.reverse.dropLast
        else
          sliceFT base c.e0 c.e1 ++ c.path.reverse.dropLast
      out :: divideAux base cs f (i + 1)

/-- The geometry-kernel and downstream services consumed by the crossing
resolver and the driver, abstracted as oracles: classified point-in-polygon
(modelled from the spec), the angle-driven loop extraction of splitFace
(whose atan2-based tour is not expressible in exact arithmetic; any extraction
sequence is allowed), and the hole-merging back end. -/
structure Kernel where
  pip : List P2 → P2 → PClass
  extract : List (V × V) → List (List V)
  merge : List (List V) → List (List V) → List (List V)

/-- Classification step of splitFace (lines 281-316): each extracted loop is
appended to the face-loop list when the signed area of its projection is
negative, and to the hole-loop list otherwise. -/
def splitFaceClassify (proj : V → P2) (ls : List (List V)) :
    List (List V) × List (List V) :=
  ls.foldl
    (fun acc l =>
      if signedArea (l.map proj) < fzero then (acc.1 ++ [l], acc.2)
      else (acc.1, acc.2 ++ [l]))
    ([], [])

/-- splitFace (lines 207-343) with the angular tour abstracted: extract loops
with the kernel oracle, then classify them by signed area. -/
def splitFace (K : Kernel) (proj : V → P2) (edges : List (V × V)) :
    List (List V) × List (List V) :=
  splitFaceClassify proj (K.extract edges)

/-- Directed perimeter edges of a divided base loop plus both directions of
each included path (lines 1066-1083), accumulated as a V2Set. -/
def inclusionEdges (d : List V) (inc : List (List V)) : List (V × V) :=
  let fe := (d.zip (d.drop 1)).foldl insertPair []
  let fe := match d with
    | [] => fe
    | _ :: _ => insertPair fe (d.getLastI, d.headI)
  inc.foldl
    (fun fe p =>
      (p.zip (p.drop 1)).foldl (fun fe e => insertPair (insertPair fe e) (e.2, e.1)) fe)
    fe

/-- Step E of processCrossingEdges (lines 1014-1097): for each divided base
loop, find the non-crossing paths and interior loops contained in it; if none
it is emitted as is, otherwise the union's directed edges go through splitFace
and, when hole loops arise, mergeFacesAndHoles. -/
def incPhase (K : Kernel) (proj : V → P2) (n : ℕ) (base : List V)
    (noncross : List crossing_data) (loops : List (List V))
    (divided : List (List V)) : List (List V) :=
  divided.foldl
    (fun acc d =>
      let projd := d.map proj
      let box := fitAabb projd
      let incn := (noncross.filter (fun c =>
        let t :=
          if c.e0 < n then
            if c.path.headI = base.getD c.e0 0 then proj c.path.getLastI
            else proj c.path.headI
          else proj c.path.headI
        aabbContains box t && !(K.pip projd t == PClass.pOut))).map crossing_data.path
      let incl := loops.filter (fun l =>
        let t := proj l.headI
        aabbContains box t && !(K.pip projd t == PClass.pOut))
      let inc := incn ++ incl
      if inc = [] then acc ++ [d]
      else
        let fe := inclusionEdges d inc
        let sp := splitFace K proj fe
        if sp.2 = [] then acc ++ sp.1
        else acc ++ K.merge sp.1 sp.2)
    []

/-- Translation of processCrossingEdges (lines 809-1098): locate path
endpoints on the base loop, normalise and sort the crossings, divide the base
loop, and embed non-crossing paths and interior loops. The source function
falls off its end without a return value and its callers treat that as
success, so the model returns the emitted loops unconditionally. -/
def processCrossingEdges (K : Kernel) (proj : V → P2) (base : List V)
    (paths loops : List (List V)) : List (List V) :=
  let eis := paths.map (locatePath proj base)
  let pc := prepareCross proj base eis
  let cs := orderGroups proj (pc.1.length) pc.1
  let divided := divideAux base cs cs.length 0
  incPhase K proj base.length base pc.2 loops divided

end Carve

namespace Carve

/-- An edge record of the polyhedron: the two canonical endpoints of a
perimeter edge (poly_t::edge_t's v1 and v2). -/
structure EdgeRec where
  v1 : V
  v2 : V
deriving DecidableEq

/-- Per-face input of the driver: the parallel vertex/edge cycle of the face,
the face's projector composed with the vertex coordinates, and the per-face
view of the data bundle (vmap, divided_edges, face_split_edges). -/
structure FaceInput where
  entries : List (V × EdgeRec)
  proj : V → P2
  vmap : V → V
  divided : EdgeRec → Option (List V)
  fse : Option (List (V × V))

/-- Translation of assembleBaseLoop (lines 742-771): walk the face's
vertex/edge cycle, pushing the mapped face vertex and then, when the edge is
divided, its intersection vertices in edge direction (forward when the edge's
v1 is the current face vertex, else reversed). -/
def assembleBaseLoop (inp : FaceInput) : List V :=
  inp.entries.foldl
    (fun acc ve =>
      let acc := acc ++ [inp.vmap ve.1]
      match inp.divided ve.2 with
      | none => acc
      | some evs => if ve.2.v1 = ve.1 then acc ++ evs else acc ++ evs.reverse)
    []

/-- Directed perimeter edge set of the base loop (lines 1315-1320). -/
def faceEdgesOf (base : List V) : List (V × V) :=
  let fe := (base.zip (base.drop 1)).foldl insertPair []
  match base with
  | [] => fe
  | _ :: _ => insertPair fe (base.getLastI, base.headI)

/-- The split-edge set of generateOneFaceLoop (lines 1323-1338): the face's
split segments that do not coincide with a perimeter edge of the base loop in
either direction, normalised and collected as a V2Set. -/
def computeSplitEdges (inp : FaceInput) : List (V × V) :=
  match inp.fse with
  | none => []
  | some fse =>
    let base := assembleBaseLoop inp
    let fe := faceEdgesOf base
    fse.foldl
      (fun s e =>
        if e ∈ fe ∨ (e.2, e.1) ∈ fe then s
        else insertPair s (orderedEdge e.1 e.2))
      []

/-- The paths-empty branch of generateOneFaceLoop (lines 1385-1414): the base
loop is a face loop; every composed interior loop contributes a reversed copy
as a face loop and a forward copy (without the repeated last vertex) as a
hole loop, the two swapped when the face-loop candidate has positive signed
area; holes are then merged. -/
def pathsEmptyBranch (K : Kernel) (inp : FaceInput) (base : List V)
    (loops : List (List V)) : List (List V) :=
  let fl := loops.foldl
    (fun acc l =>
      let h := l.dropLast
      let f := l.reverse.drop 1
      if fzero < signedArea (f.map inp.proj) then (acc.1 ++ [h], acc.2 ++ [f])
      else (acc.1 ++ [f], acc.2 ++ [h]))
    ([base], [])
  if fl.2 = [] then fl.1 else K.merge fl.1 fl.2

/-- The clean two-loop split of the single-chord fast path
(lines 1346-1377): split the base loop at the first occurrences of the two
chord endpoints. -/
def chordSplit (base : List V) (a b : V) : List (List V) :=
  let ia := base.indexOf a
  let ib := base.indexOf b
  let j1 := if ib < ia then ib else ia
  let j2 := if ib < ia then ia else ib
  [(base.take (j2 + 1)).drop j1, base.drop j2 ++ base.take (j1 + 1)]

/-- The slow path of generateOneFaceLoop (lines 1380-1428): compose the split
edges into paths and loops, then either the paths-empty branch or
processCrossingEdges. The source treats processCrossingEdges' (undefined)
return value as success, so no fallback is modelled behind it. -/
def composePhase (K : Kernel) (inp : FaceInput) (base : List V)
    (split : List (V × V)) : List (List V) :=
  let pl := composeEdgesIntoPaths split base
  if pl.1 = [] then pathsEmptyBranch K inp base pl.2
  else processCrossingEdges K inp.proj base pl.1 pl.2

/-- Translation of generateOneFaceLoop (lines 1291-1429): the fast paths (no
split entry, empty split set, a single chord between two base-loop vertices),
then the slow path. -/
def generateOneFaceLoop (K : Kernel) (inp : FaceInput) : List (List V) :=
  match inp.fse with
  | none => [assembleBaseLoop inp]
  | some _ =>
    if computeSplitEdges inp = [] then [assembleBaseLoop inp]
    else if (computeSplitEdges inp).length = 1 then
      if (assembleBaseLoop inp).indexOf (computeSplitEdges inp).headI.1 < (assembleBaseLoop inp).length ∧
         (assembleBaseLoop inp).indexOf (computeSplitEdges inp).headI.2 < (assembleBaseLoop inp).length then
        chordSplit (assembleBaseLoop inp) (computeSplitEdges inp).headI.1 (computeSplitEdges inp).headI.2
      else composePhase K inp (assembleBaseLoop inp) (computeSplitEdges inp)
    else composePhase K inp (assembleBaseLoop inp) (computeSplitEdges inp)

/-- Translation of generateFaceLoops (lines 1448-1475): run the per-face
driver over every face, emitting (face, loop) pairs and the total number of
vertex handles generated. -/
def generateFaceLoops (K : Kernel) (faces : List (ℕ × FaceInput)) :
    List (ℕ × List V) × ℕ :=
  faces.foldl
    (fun acc fi =>
      let ls := generateOneFaceLoop K fi.2
      (acc.1 ++ ls.map (fun l => (fi.1, l)), acc.2 + (ls.map List.length).sum))
    ([], 0)

end Carve

namespace Carve

/-- State of the hole-assignment iteration in mergeFacesAndHoles: the
containing-face lists of the holes, the holes assigned to each face, and the
signed unassigned counter. -/
structure MergeState where
  containing : List (List ℕ)
  faceHoles : List (List ℕ)
  unassigned : ℤ
deriving DecidableEq

/-- One round of the while loop of mergeFacesAndHoles (lines 650-672): every
hole whose containing-face list has exactly one entry is assigned to that
face and decrements the counter; the consumed faces are then removed from
every hole's list. -/
def mergeRound (s : MergeState) : MergeState :=
  let singles := (List.range s.containing.length).filter
    (fun i => (s.containing.getD i []).length == 1)
  let fh := singles.foldl
    (fun fh i =>
      let f := (s.containing.getD i []).headI
      fh.set f ((fh.getD f []) ++ [i]))
    s.faceHoles
  let removed := singles.map (fun i => (s.containing.getD i []).headI)
  let containing := s.containing.map (fun l => l.filter (fun f => !(removed.contains f)))
  ⟨containing, fh, s.unassigned - singles.length⟩

/-- Iterated rounds of the hole-assignment loop. -/
def mergeIter : ℕ → MergeState → MergeState
  | 0, s => s
  | n + 1, s => mergeIter n (mergeRound s)

/-- Entry state of the while loop (lines 607-646) for a given number of face
loops and the computed containing-face lists: the counter starts at the
number of holes and is pre-decremented once for every hole whose list is
empty (the patch/warn branch), leaving the number of holes with a non-empty
containing list. -/
def initMergeLoop (nfaces : ℕ) (containing : List (List ℕ)) : MergeState :=
  ⟨containing, List.replicate nfaces [], (containing.filter (fun l => !l.isEmpty)).length⟩

end Carve


namespace Carve

/-- A kernel instantiation whose oracles are never consulted by the concrete
runs below (their inclusion sets are empty and no holes arise). -/
def trivialKernel : Kernel :=
  ⟨fun _ _ => PClass.pOut, fun _ => [], fun f _ => f⟩

/-- Projector for the square face with an interior triangle touching its
corner: square (0,0)-(4,0)-(4,4)-(0,4), triangle corner vertices P=(2,1),
Q=(1,2). -/
def squareRingProj : V → P2 :=
  fun v => [fp 0 0, fp 4 0, fp 4 4, fp 0 4, fp 2 1, fp 1 2].getD v (fp 0 0)

/-- Square face 0-1-2-3 whose split segments form a closed triangle 0-4-5
through the corner vertex 0: a valid intersection configuration (a ring of
intersection segments touching the perimeter at one vertex). -/
def squareRingInput : FaceInput :=
  ⟨[(0, ⟨0,1⟩), (1, ⟨1,2⟩), (2, ⟨2,3⟩), (3, ⟨3,0⟩)],
   squareRingProj, id, fun _ => none, some [(0,4),(4,5),(0,5)]⟩

/-- Projector for the plain square face. -/
def squareProj : V → P2 :=
  fun v => [fp 0 0, fp 4 0, fp 4 4, fp 0 4].getD v (fp 0 0)

/-- Square face with a single chord between base-loop vertices 1 and 3. -/
def squareChordInput : FaceInput :=
  ⟨[(0, ⟨0,1⟩), (1, ⟨1,2⟩), (2, ⟨2,3⟩), (3, ⟨3,0⟩)],
   squareProj, id, fun _ => none, some [(1,3)]⟩

/-- Square face whose only split entry coincides with a perimeter edge, so
the computed split set is empty. -/
def squareEmptySplitInput : FaceInput :=
  ⟨[(0, ⟨0,1⟩), (1, ⟨1,2⟩), (2, ⟨2,3⟩), (3, ⟨3,0⟩)],
   squareProj, id, fun _ => none, some [(0,1)]⟩

/-- Triangle face with no face_split_edges entry and no divided edges. -/
def triangleNoSplitInput : FaceInput :=
  ⟨[(0, ⟨0,1⟩), (1, ⟨1,2⟩), (2, ⟨2,0⟩)],
   (fun v => [fp 0 0, fp 4 0, fp 0 4].getD v (fp 0 0)),
   id, fun _ => none, none⟩

/-- Triangle face whose edge 0-1 carries one intersection vertex 9. -/
def triangleDividedInput : FaceInput :=
  ⟨[(0, ⟨0,1⟩), (1, ⟨1,2⟩), (2, ⟨2,0⟩)],
   (fun v => [Carve.fp 0 0, Carve.fp 4 0, Carve.fp 0 4].getD v (Carve.fp 0 0)),
   id, (fun e => if e = ⟨0,1⟩ then some [9] else none), none⟩

/-- Pinched base loop for the angular-dispatch scan: a bowtie in which vertex
2 occurs at indices 2 and 5. -/
def bowtieBase : List V := [0, 1, 2, 3, 4, 2]

/-- Projector for the bowtie: 0=(0,0), 1=(2,0), 2=(1,1), 3=(2,2), 4=(0,2),
and the interior path vertex 5=(1,0). -/
def bowtieProj : V → P2 :=
  fun v => [fp 0 0, fp 2 0, fp 1 1, fp 2 2, fp 0 2, fp 1 0].getD v (fp 0 0)

/-- Interior path starting at the duplicated bowtie vertex. -/
def bowtiePath : List V := [2, 5]

/-- The per-step contribution of assembleBaseLoop described by the spec: the
mapped face vertex followed by the edge's divided sequence, forward when the
edge runs with the face (edge.v1 equals the face vertex), else reversed. -/
def baseSegment (inp : FaceInput) (ve : V × EdgeRec) : List V :=
  inp.vmap ve.1 ::
    (match inp.divided ve.2 with
     | none => []
     | some evs => if ve.2.v1 = ve.1 then evs else evs.reverse)

/-- Total number of occurrences of a vertex in the divided-edge sequences of
a face's perimeter. -/
def dividedOccCount (inp : FaceInput) (x : V) : ℕ :=
  (inp.entries.map (fun ve =>
    match inp.divided ve.2 with
    | none => 0
    | some evs => evs.count x)).sum

/-- The base-loop indices at which a vertex occurs, in ascending order. -/
def occIdx (base : List V) (target : V) : List ℕ :=
  (List.range base.length).filter (fun i => decide (vertAt base i target))

/-- The attachment index described by the scan: the not-found sentinel when
the vertex does not occur; otherwise the last occurrence after the first
whose angular test passes, or the first occurrence when no later one
passes. -/
def attachFormula (n : ℕ) (pass : ℕ → Bool) (occ : List ℕ) : ℕ :=
  if occ = [] then n
  else if occ.tail.filter pass = [] then occ.headI
  else (occ.tail.filter pass).getLastI

end Carve

namespace Carve

/-- If the face has no face_split_edges entry the driver emits the base loop. -/
theorem gen_of_fse_none (K : Kernel) (inp : FaceInput) (h : inp.fse = none) :
    generateOneFaceLoop K inp = [assembleBaseLoop inp] := by
  simp [generateOneFaceLoop, h]

/-- If the computed split set is empty the driver emits the base loop. -/
theorem gen_of_split_empty (K : Kernel) (inp : FaceInput)
    (h : computeSplitEdges inp = []) :
    generateOneFaceLoop K inp = [assembleBaseLoop inp] := by
  cases hf : inp.fse with
  | none => simp [generateOneFaceLoop, hf]
  | some l => simp [generateOneFaceLoop, hf, h]

/-- insertPair never returns the empty list. -/
theorem insertPair_ne_nil (s : List (V × V)) (e : V × V) : insertPair s e ≠ [] := by
  cases s with
  | nil => simp [insertPair]
  | cons f rest =>
    unfold insertPair
    split
    · simp
    · split <;> simp

/-- A fold that inserts the non-discarded entries is empty iff the
accumulator was empty and every entry is discarded. -/
theorem splitFold_empty_iff (p : V × V → Prop) [DecidablePred p] :
    ∀ (l : List (V × V)) (acc : List (V × V)),
      (l.foldl (fun s e => if p e then s else insertPair s (orderedEdge e.1 e.2)) acc = []
        ↔ acc = [] ∧ ∀ e ∈ l, p e) := by
  intro l
  induction l with
  | nil => simp
  | cons e t ih =>
    intro acc
    by_cases hp : p e
    · simp [hp, ih, List.forall_mem_cons]
    · simp only [List.foldl_cons, if_neg hp, ih, List.forall_mem_cons]
      constructor
      · rintro ⟨h1, -⟩
        exact absurd h1 (insertPair_ne_nil _ _)
      · rintro ⟨-, hmem, -⟩
        exact absurd hmem hp

end Carve

namespace Carve

/-- C3: if a face has no face_split_edges entry, or every entry coincides
with a perimeter edge of the base loop in either direction (so that the
computed split set is empty), generateOneFaceLoop outputs exactly the base
loop and performs no further splitting. -/
theorem c3_fast_paths (K : Kernel) (inp : FaceInput) :
    (inp.fse = none → generateOneFaceLoop K inp = [assembleBaseLoop inp]) ∧
    (computeSplitEdges inp = [] → generateOneFaceLoop K inp = [assembleBaseLoop inp]) ∧
    (∀ l, inp.fse = some l →
      (computeSplitEdges inp = [] ↔
        ∀ e ∈ l, e ∈ faceEdgesOf (assembleBaseLoop inp) ∨
          (e.2, e.1) ∈ faceEdgesOf (assembleBaseLoop inp))) := by
  refine ⟨gen_of_fse_none K inp, gen_of_split_empty K inp, ?_⟩
  intro l hf
  have h := splitFold_empty_iff
    (fun e => e ∈ faceEdgesOf (assembleBaseLoop inp) ∨
      (e.2, e.1) ∈ faceEdgesOf (assembleBaseLoop inp)) l []
  simpa [computeSplitEdges, hf] using h

/-- Witness for C3 at two concrete inputs: a face with no entry, and a face
whose single entry lies on the perimeter. -/
theorem c3_fast_paths_witness :
    generateOneFaceLoop trivialKernel triangleNoSplitInput = [[0, 1, 2]] ∧
    generateOneFaceLoop trivialKernel squareEmptySplitInput = [[0, 1, 2, 3]] := by
  constructor
  · exact ((c3_fast_paths trivialKernel triangleNoSplitInput).1 (by rfl)).trans (by decide)
  · exact ((c3_fast_paths trivialKernel squareEmptySplitInput).2.1 (by decide)).trans (by decide)

end Carve

namespace Carve

/-- When the computed split set is a single segment with both endpoints on
the base loop, the driver takes the clean two-loop split. -/
theorem gen_chord (K : Kernel) (inp : FaceInput) (a b : V)
    (hs : computeSplitEdges inp = [(a, b)])
    (ha : a ∈ assembleBaseLoop inp) (hb : b ∈ assembleBaseLoop inp) :
    generateOneFaceLoop K inp = chordSplit (assembleBaseLoop inp) a b := by
  cases hf : inp.fse with
  | none => simp [computeSplitEdges, hf] at hs
  | some l =>
    have hia : (assembleBaseLoop inp).indexOf a < (assembleBaseLoop inp).length :=
      List.indexOf_lt_length.mpr ha
    have hib : (assembleBaseLoop inp).indexOf b < (assembleBaseLoop inp).length :=
      List.indexOf_lt_length.mpr hb
    simp [generateOneFaceLoop, hf, hs, hia, hib]

/-- The two chord loops are duplicate-free slices of a duplicate-free base
loop. -/
theorem chord_nodup (base : List V) (hnd : base.Nodup) (j1 j2 : ℕ) (h12 : j1 < j2) :
    ((base.take (j2 + 1)).drop j1).Nodup ∧ (base.drop j2 ++ base.take (j1 + 1)).Nodup := by
  constructor
  · exact ((List.drop_sublist _ _).trans (List.take_sublist _ _)).nodup hnd
  · have hsplit : base.take (j1 + 1) ++ base.drop (j1 + 1) = base :=
      List.take_append_drop _ _
    have hnd2 : (base.take (j1 + 1) ++ base.drop (j1 + 1)).Nodup := by
      rw [hsplit]; exact hnd
    have hd0 : (base.take (j1 + 1)).Disjoint (base.drop (j1 + 1)) :=
      (List.nodup_append.mp hnd2).2.2
    have hsub : List.Sublist (base.drop j2) (base.drop (j1 + 1)) := by
      have heq : base.drop j2 = (base.drop (j1 + 1)).drop (j2 - (j1 + 1)) := by
        rw [List.drop_drop]
        congr 1
        omega
      rw [heq]
      exact List.drop_sublist _ _
    refine List.nodup_append.mpr ⟨(List.drop_sublist _ _).nodup hnd,
      (List.take_sublist _ _).nodup hnd, ?_⟩
    intro x hx
    exact fun hx2 => hd0.symm (hsub.subset hx) hx2

/-- C4: a single split segment between two base-loop vertices at positions
i1 < i2 produces exactly the two loops base[i1..i2] and
base[i2..] ++ base[..i1], of sizes i2-i1+1 and N+2-(i2-i1+1). -/
theorem c4_single_chord (K : Kernel) (inp : FaceInput) (a b : V) (i1 i2 : ℕ)
    (hs : computeSplitEdges inp = [(a, b)]) (hab : a ≠ b)
    (ha : a ∈ assembleBaseLoop inp) (hb : b ∈ assembleBaseLoop inp)
    (h1 : i1 = min ((assembleBaseLoop inp).indexOf a) ((assembleBaseLoop inp).indexOf b))
    (h2 : i2 = max ((assembleBaseLoop inp).indexOf a) ((assembleBaseLoop inp).indexOf b)) :
    generateOneFaceLoop K inp =
      [((assembleBaseLoop inp).take (i2 + 1)).drop i1,
       (assembleBaseLoop inp).drop i2 ++ (assembleBaseLoop inp).take (i1 + 1)] ∧
    i1 < i2 ∧
    (((assembleBaseLoop inp).take (i2 + 1)).drop i1).length = i2 - i1 + 1 ∧
    ((assembleBaseLoop inp).drop i2 ++ (assembleBaseLoop inp).take (i1 + 1)).length =
      (assembleBaseLoop inp).length + 2 - (i2 - i1 + 1) := by
  have hia : (assembleBaseLoop inp).indexOf a < (assembleBaseLoop inp).length :=
    List.indexOf_lt_length.mpr ha
  have hib : (assembleBaseLoop inp).indexOf b < (assembleBaseLoop inp).length :=
    List.indexOf_lt_length.mpr hb
  have hne : (assembleBaseLoop inp).indexOf a ≠ (assembleBaseLoop inp).indexOf b := by
    intro h
    exact hab ((List.indexOf_inj ha hb).mp h)
  have hcases : (i1 = (assembleBaseLoop inp).indexOf a ∧ i2 = (assembleBaseLoop inp).indexOf b ∧
      (assembleBaseLoop inp).indexOf a ≤ (assembleBaseLoop inp).indexOf b) ∨
      (i1 = (assembleBaseLoop inp).indexOf b ∧ i2 = (assembleBaseLoop inp).indexOf a ∧
      (assembleBaseLoop inp).indexOf b ≤ (assembleBaseLoop inp).indexOf a) := by
    rcases le_total ((assembleBaseLoop inp).indexOf a) ((assembleBaseLoop inp).indexOf b) with h | h
    · exact Or.inl ⟨by rw [h1]; exact min_eq_left h, by rw [h2]; exact max_eq_right h, h⟩
    · exact Or.inr ⟨by rw [h1]; exact min_eq_right h, by rw [h2]; exact max_eq_left h, h⟩
  have h12 : i1 < i2 := by rcases hcases with ⟨e1, e2, hle⟩ | ⟨e1, e2, hle⟩ <;> omega
  have hi2 : i2 < (assembleBaseLoop inp).length := by
    rcases hcases with ⟨e1, e2, hle⟩ | ⟨e1, e2, hle⟩ <;> omega
  refine ⟨?_, h12, ?_, ?_⟩
  · rw [gen_chord K inp a b hs ha hb]
    simp only [chordSplit]
    by_cases hlt : (assembleBaseLoop inp).indexOf b < (assembleBaseLoop inp).indexOf a
    · rcases hcases with ⟨e1, e2, hle⟩ | ⟨e1, e2, hle⟩
      · exact absurd hlt (not_lt.mpr hle)
      · rw [if_pos hlt, if_pos hlt, ← e1, ← e2]
    · rcases hcases with ⟨e1, e2, hle⟩ | ⟨e1, e2, hle⟩
      · rw [if_neg hlt, if_neg hlt, ← e1, ← e2]
      · exact absurd (by omega :
          (assembleBaseLoop inp).indexOf a = (assembleBaseLoop inp).indexOf b) hne
  · rw [List.length_drop, List.length_take, min_eq_left (by omega : i2 + 1 ≤ (assembleBaseLoop inp).length)]
    omega
  · rw [List.length_append, List.length_drop, List.length_take,
      min_eq_left (by omega : i1 + 1 ≤ (assembleBaseLoop inp).length)]
    omega

/-- Witness for C4: the square with chord (1,3) splits into [1,2,3] and
[3,0,1], of sizes 3 and 3. -/
theorem c4_single_chord_witness :
    generateOneFaceLoop trivialKernel squareChordInput = [[1, 2, 3], [3, 0, 1]] := by
  have h := (c4_single_chord trivialKernel squareChordInput 1 3 1 3
    (by decide) (by decide) (by decide) (by decide) (by decide) (by decide)).1
  exact h.trans (by decide)

end Carve

namespace Carve

/-- C2 (amended): loops emitted through the driver's fast paths (no split
entry, empty split set, or a single chord with distinct endpoints on a
duplicate-free base loop) contain each vertex handle at most once. -/
theorem c2_fast_path_nodup (K : Kernel) (inp : FaceInput)
    (hnd : (assembleBaseLoop inp).Nodup)
    (hcase : inp.fse = none ∨ computeSplitEdges inp = [] ∨
      ∃ a b, computeSplitEdges inp = [(a, b)] ∧ a ≠ b ∧
        a ∈ assembleBaseLoop inp ∧ b ∈ assembleBaseLoop inp) :
    ∀ l ∈ generateOneFaceLoop K inp, l.Nodup := by
  rcases hcase with h | h | ⟨a, b, hs, hab, ha, hb⟩
  · rw [gen_of_fse_none K inp h]
    intro l hl
    rw [List.mem_singleton] at hl
    exact hl ▸ hnd
  · rw [gen_of_split_empty K inp h]
    intro l hl
    rw [List.mem_singleton] at hl
    exact hl ▸ hnd
  · rw [gen_chord K inp a b hs ha hb]
    have hne : (assembleBaseLoop inp).indexOf a ≠ (assembleBaseLoop inp).indexOf b := by
      intro h
      exact hab ((List.indexOf_inj ha hb).mp h)
    simp only [chordSplit]
    by_cases hlt : (assembleBaseLoop inp).indexOf b < (assembleBaseLoop inp).indexOf a
    · rw [if_pos hlt, if_pos hlt]
      have hc := chord_nodup (assembleBaseLoop inp) hnd _ _ hlt
      intro l hl
      simp only [List.mem_cons, List.mem_singleton, List.not_mem_nil, or_false] at hl
      rcases hl with rfl | rfl
      · exact hc.1
      · exact hc.2
    · rw [if_neg hlt, if_neg hlt]
      have hlt2 : (assembleBaseLoop inp).indexOf a < (assembleBaseLoop inp).indexOf b := by
        omega
      have hc := chord_nodup (assembleBaseLoop inp) hnd _ _ hlt2
      intro l hl
      simp only [List.mem_cons, List.mem_singleton, List.not_mem_nil, or_false] at hl
      rcases hl with rfl | rfl
      · exact hc.1
      · exact hc.2

/-- Concrete run of the square-chord input. -/
theorem squareChord_run :
    generateOneFaceLoop trivialKernel squareChordInput = [[1, 2, 3], [3, 0, 1]] := by
  decide

/-- Witness for the amended C2 at the square-chord input. -/
theorem c2_fast_path_nodup_witness :
    generateOneFaceLoop trivialKernel squareChordInput = [[1, 2, 3], [3, 0, 1]] ∧
    ([1, 2, 3] : List V).Nodup ∧ ([3, 0, 1] : List V).Nodup := by
  refine ⟨squareChord_run, ?_, ?_⟩
  · exact c2_fast_path_nodup trivialKernel squareChordInput (by decide)
      (Or.inr (Or.inr ⟨1, 3, by decide, by decide, by decide, by decide⟩))
      [1, 2, 3] (by rw [squareChord_run]; decide)
  · exact c2_fast_path_nodup trivialKernel squareChordInput (by decide)
      (Or.inr (Or.inr ⟨1, 3, by decide, by decide, by decide, by decide⟩))
      [3, 0, 1] (by rw [squareChord_run]; decide)

end Carve

namespace Carve

/-- The classification fold appends each loop to the face side when its test
holds and to the hole side otherwise. -/
theorem classify_aux (p : List V → Bool) :
    ∀ (ls : List (List V)) (acc : List (List V) × List (List V)),
      ls.foldl (fun acc l => if p l then (acc.1 ++ [l], acc.2) else (acc.1, acc.2 ++ [l])) acc =
        (acc.1 ++ ls.filter p, acc.2 ++ ls.filter (fun l => !p l)) := by
  intro ls
  induction ls with
  | nil => simp
  | cons l t ih =>
    intro acc
    by_cases hp : p l
    · simp [hp, ih]
    · simp [hp, ih]

/-- C8: splitFace classifies every extracted loop by the signed area of its
2D projection; negative-area loops are appended (in order) to the face-loop
list and all others to the hole-loop list. -/
theorem c8_splitFace_classification (K : Kernel) (proj : V → P2) (edges : List (V × V)) :
    splitFace K proj edges =
      ((K.extract edges).filter (fun l => decide (signedArea (l.map proj) < fzero)),
       (K.extract edges).filter (fun l => !(decide (signedArea (l.map proj) < fzero)))) := by
  have h := classify_aux (fun l => decide (signedArea (l.map proj) < fzero)) (K.extract edges) ([], [])
  simp only [List.nil_append] at h
  rw [splitFace, splitFaceClassify]
  rw [← h]
  congr 1
  funext acc l
  by_cases hlt : signedArea (l.map proj) < fzero
  · simp [hlt]
  · simp [hlt]

/-- C10: at the two-hole configuration in which both holes are contained in
the same two face loops, the hole-assignment iteration of mergeFacesAndHoles
makes no progress: the unassigned counter stays 2 forever, so the while loop
(which exits only when the counter reaches 0) never terminates. -/
theorem c10_merge_loop_stuck :
    ∀ n : ℕ, (mergeIter n (initMergeLoop 2 [[0, 1], [0, 1]])).unassigned = 2 := by
  have hfix : mergeRound (initMergeLoop 2 [[0, 1], [0, 1]]) = initMergeLoop 2 [[0, 1], [0, 1]] := by
    decide
  have hall : ∀ n, mergeIter n (initMergeLoop 2 [[0, 1], [0, 1]]) = initMergeLoop 2 [[0, 1], [0, 1]] := by
    intro n
    induction n with
    | zero => rfl
    | succ n ih =>
      show mergeIter n (mergeRound (initMergeLoop 2 [[0, 1], [0, 1]])) = _
      rw [hfix]
      exact ih
  intro n
  rw [hall n]
  rfl

end Carve

namespace Carve

/-- C1 (failing run): on the square face whose split segments form a triangle
through corner vertex 0, the driver returns two (face, loop) pairs, and the
second returned loop [0,5,4] has signed area -3/2 < 0 under the face's
projector, contradicting the positive-orientation guarantee. The kernel
oracles are never consulted on this input, so the run is stated for every
kernel instantiation. -/
theorem c1_negative_area_loop (K : Kernel) :
    generateFaceLoops K [(7, squareRingInput)] =
      ([(7, [0, 4, 5, 0, 1, 2, 3]), (7, [0, 5, 4])], 10) ∧
    signedArea ([0, 5, 4].map squareRingProj) = ⟨-3, 2⟩ := by
  exact ⟨rfl, by decide⟩

/-- C2 (counterexample run): the driver emits the loop [0,4,5,0,1,2,3] for
the square-ring face; vertex handle 0 occurs twice in that emitted loop. -/
theorem c2_duplicate_vertex :
    generateOneFaceLoop trivialKernel squareRingInput = [[0, 4, 5, 0, 1, 2, 3], [0, 5, 4]] ∧
    List.count 0 [0, 4, 5, 0, 1, 2, 3] = 2 := by
  exact ⟨rfl, by decide⟩

end Carve

namespace Carve

/-- A fold that appends f of each element equals the flattened map. -/
theorem foldl_append_join (f : V × EdgeRec → List V) :
    ∀ (l : List (V × EdgeRec)) (acc : List V),
      l.foldl (fun a x => a ++ f x) acc = acc ++ (l.map f).join := by
  intro l
  induction l with
  | nil => simp
  | cons x t ih =>
    intro acc
    simp [ih, List.append_assoc]

/-- assembleBaseLoop is the concatenation of the per-step segments. -/
theorem assembleBaseLoop_eq_join (inp : FaceInput) :
    assembleBaseLoop inp = ((inp.entries.map (baseSegment inp)).join) := by
  have hbody : (fun (acc : List V) (ve : V × EdgeRec) =>
      let acc' := acc ++ [inp.vmap ve.1]
      match inp.divided ve.2 with
      | none => acc'
      | some evs => if ve.2.v1 = ve.1 then acc' ++ evs else acc' ++ evs.reverse) =
      (fun acc ve => acc ++ baseSegment inp ve) := by
    funext acc ve
    simp only [baseSegment]
    cases h : inp.divided ve.2 with
    | none => simp
    | some evs =>
      by_cases hd : ve.2.v1 = ve.1
      · simp [hd]
      · simp [hd]
  rw [assembleBaseLoop, hbody, foldl_append_join]
  simp

/-- Every member of a list of nonempty lists contributes at least one element
to the join. -/
theorem length_le_join_length :
    ∀ (L : List (List V)), (∀ l ∈ L, l ≠ []) → L.length ≤ L.join.length := by
  intro L
  induction L with
  | nil => simp
  | cons l t ih =>
    intro h
    have hl : l ≠ [] := h l (List.mem_cons_self _ _)
    have ht := ih (fun x hx => h x (List.mem_cons_of_mem _ hx))
    have : 1 ≤ l.length := by
      cases l with
      | nil => exact absurd rfl hl
      | cons a t2 => simp
    have hj : (l :: t).join = l ++ t.join := rfl
    rw [hj, List.length_append, List.length_cons]
    omega

/-- C5: assembleBaseLoop walks the face's vertex/edge cycle appending the
mapped vertex and the (direction-adjusted) divided sequence of each edge; a
vertex that occurs exactly once among the divided sequences and is not one of
the mapped face vertices occurs exactly once in the base loop, and the base
loop has at least as many vertices as the face. -/
theorem c5_assembleBaseLoop (inp : FaceInput) (x : V)
    (h1 : dividedOccCount inp x = 1)
    (h2 : ∀ ve ∈ inp.entries, inp.vmap ve.1 ≠ x) :
    assembleBaseLoop inp = (inp.entries.map (baseSegment inp)).join ∧
    (assembleBaseLoop inp).count x = 1 ∧
    inp.entries.length ≤ (assembleBaseLoop inp).length := by
  refine ⟨assembleBaseLoop_eq_join inp, ?_, ?_⟩
  · rw [assembleBaseLoop_eq_join, List.count_join, List.map_map]
    have hmap : ∀ ve ∈ inp.entries,
        (List.count x ∘ baseSegment inp) ve =
          (match inp.divided ve.2 with
           | none => 0
           | some evs => evs.count x) := by
      intro ve hve
      simp only [Function.comp, baseSegment]
      rw [List.count_cons]
      cases h : inp.divided ve.2 with
      | none => simp [h2 ve hve]
      | some evs =>
        by_cases hd : ve.2.v1 = ve.1
        · simp [hd, h2 ve hve]
        · simp [hd, h2 ve hve, List.count_reverse]
    rw [List.map_congr_left hmap]
    exact h1
  · rw [assembleBaseLoop_eq_join]
    have hlen : inp.entries.length = (inp.entries.map (baseSegment inp)).length := by
      simp
    rw [hlen]
    refine length_le_join_length _ ?_
    intro l hl
    rcases List.mem_map.mp hl with ⟨ve, -, rfl⟩
    simp [baseSegment]

/-- Witness for C5 at the triangle whose edge 0-1 carries the intersection
vertex 9. -/
theorem c5_assembleBaseLoop_witness :
    (assembleBaseLoop triangleDividedInput).count 9 = 1 ∧
    assembleBaseLoop triangleDividedInput = [0, 9, 1, 2] := by
  refine ⟨(c5_assembleBaseLoop triangleDividedInput 9 (by decide) (by decide)).2.1, by decide⟩

end Carve

namespace Carve

instance : IsTotal crossing_data crossLE := by
  constructor
  intro a b
  unfold crossLE crossLT
  omega

instance : IsTrans crossing_data crossLE := by
  constructor
  intro a b c
  unfold crossLE crossLT
  omega

/-- Every normalised crossing record has its indices in order. -/
theorem orientTransform_le (proj : V → P2) (c : crossing_data) :
    (orientTransform proj c).e0 ≤ (orientTransform proj c).e1 := by
  unfold orientTransform
  split
  · rename_i h0
    split
    · show c.e0 ≤ c.e1
      omega
    · omega
  · rename_i h0
    split
    · rename_i h1
      show c.e1 ≤ c.e0
      omega
    · rename_i h1
      omega

/-- An out-of-order crossing is swapped and its path reversed. -/
theorem orientTransform_swap (proj : V → P2) (c : crossing_data) (h : c.e1 < c.e0) :
    orientTransform proj c = ⟨c.path.reverse, c.e1, c.e0⟩ := by
  unfold orientTransform
  rw [if_neg (by omega), if_pos h]

/-- C7: after partitioning, every entry of the sorted crossing list has
e0 ≤ e1; the synthetic whole-boundary crossing (0, N-1, [front, back]) is in
the list; the list is a permutation of the normalised crossings (those whose
second index is attached) plus the synthetic crossing; and it is sorted by
first index ascending with ties by second index descending. An entry whose
indices were out of order was swapped and its path reversed. -/
theorem c7_crossing_partition (proj : V → P2) (base : List V) (eis : List crossing_data) :
    (∀ c ∈ (prepareCross proj base eis).1, c.e0 ≤ c.e1) ∧
    syntheticCrossing base ∈ (prepareCross proj base eis).1 ∧
    ((prepareCross proj base eis).1).Perm
      (((eis.map (orientTransform proj)).filter (fun c => c.e1 ≠ base.length)) ++
        [syntheticCrossing base]) ∧
    ((prepareCross proj base eis).1).Pairwise
      (fun a b => a.e0 < b.e0 ∨ (a.e0 = b.e0 ∧ b.e1 ≤ a.e1)) ∧
    (∀ c ∈ eis, c.e1 < c.e0 →
      orientTransform proj c = ⟨c.path.reverse, c.e1, c.e0⟩) := by
  have hperm : ((prepareCross proj base eis).1).Perm
      (((eis.map (orientTransform proj)).filter (fun c => c.e1 ≠ base.length)) ++
        [syntheticCrossing base]) := by
    unfold prepareCross
    exact List.perm_insertionSort crossLE _
  refine ⟨?_, ?_, hperm, ?_, ?_⟩
  · intro c hc
    have hc2 := hperm.subset hc
    rcases List.mem_append.mp hc2 with hm | hm
    · rcases List.mem_filter.mp hm with ⟨hm2, -⟩
      rcases List.mem_map.mp hm2 with ⟨d, -, rfl⟩
      exact orientTransform_le proj d
    · rw [List.mem_singleton] at hm
      subst hm
      exact Nat.zero_le _
  · refine hperm.mem_iff.mpr ?_
    exact List.mem_append_right _ (List.mem_singleton.mpr rfl)
  · have hs : ((prepareCross proj base eis).1).Sorted crossLE := by
      unfold prepareCross
      exact List.sorted_insertionSort crossLE _
    refine hs.imp ?_
    intro a b h
    unfold crossLE crossLT at h
    omega
  · intro c _ h
    exact orientTransform_swap proj c h

/-- Witness for C7: a single out-of-order entry is swapped and sorted behind
the synthetic crossing. -/
theorem c7_crossing_partition_witness :
    (⟨[11, 10], 2, 5⟩ : crossing_data).e0 ≤ (⟨[11, 10], 2, 5⟩ : crossing_data).e1 := by
  exact (c7_crossing_partition (fun _ => fp 0 0) [0, 1, 2] [⟨[10, 11], 5, 2⟩]).1
    ⟨[11, 10], 2, 5⟩ (by decide)

end Carve


namespace Carve

/-- getD agrees with the optional-index form it unfolds to. -/
theorem getD_getElem_eq (l : List V) (i : ℕ) : l[i]?.getD 0 = l.getD i 0 := by
  rw [List.getD_eq_getElem?_getD]

/-- The head of a non-empty list is a member. -/
theorem headI_mem_of_ne_nil : ∀ (l : List ℕ), l ≠ [] → l.headI ∈ l := by
  intro l h
  cases l with
  | nil => exact absurd rfl h
  | cons a t => exact List.mem_cons_self _ _

/-- The last element of a non-empty list is a member. -/
theorem getLastI_mem_of_ne_nil : ∀ (l : List ℕ), l ≠ [] → l.getLastI ∈ l := by
  intro l h
  rw [List.getLastI_eq_getLast?, List.getLast?_eq_getLast_of_ne_nil h]
  simp only [Option.iget_some]
  exact List.getLast_mem h

/-- The last element of a list extended by one element. -/
theorem getLastI_concat (l : List ℕ) (e : ℕ) : (l ++ [e]).getLastI = e := by
  rw [List.getLastI_eq_getLast?, List.getLast?_concat]

/-- Tail of an extended non-empty list. -/
theorem tail_concat_of_ne_nil (l : List ℕ) (e : ℕ) (h : l ≠ []) :
    (l ++ [e]).tail = l.tail ++ [e] := by
  cases l with
  | nil => exact absurd rfl h
  | cons a t => rfl

/-- Head of an extended non-empty list. -/
theorem headI_concat_of_ne_nil (l : List ℕ) (e : ℕ) (h : l ≠ []) :
    (l ++ [e]).headI = l.headI := by
  cases l with
  | nil => exact absurd rfl h
  | cons a t => rfl

/-- The attachment formula of a non-empty occurrence list is one of the
occurrences. -/
theorem attachFormula_lt (n : ℕ) (pass : ℕ → Bool) (occ : List ℕ)
    (h : occ ≠ []) (hb : ∀ i ∈ occ, i < n) : attachFormula n pass occ < n := by
  unfold attachFormula
  rw [if_neg h]
  by_cases h2 : occ.tail.filter pass = []
  · rw [if_pos h2]
    exact hb _ (headI_mem_of_ne_nil _ h)
  · rw [if_neg h2]
    refine hb _ ?_
    have hmem := getLastI_mem_of_ne_nil _ h2
    exact List.tail_subset occ (List.mem_of_mem_filter hmem)

/-- The location scan computes the attachment formula of the filtered
occurrence list, for any ascending index list below the sentinel. -/
theorem locScan_spec (base : List V) (target : V) (pass : ℕ → Bool) :
    ∀ (is : List ℕ), (∀ i ∈ is, i < base.length) →
      is.foldl (locStep base target pass) base.length =
        attachFormula base.length pass
          (is.filter (fun i => decide (vertAt base i target))) := by
  intro is
  induction is using List.reverseRecOn with
  | nil =>
    intro _
    simp [attachFormula]
  | append_singleton l e ih =>
    intro hb
    have hbl : ∀ i ∈ l, i < base.length := fun i hi => hb i (List.mem_append_left _ hi)
    have hbe : e < base.length := hb e (List.mem_append_right _ (List.mem_singleton.mpr rfl))
    rw [List.foldl_append, List.foldl_cons, List.foldl_nil, ih hbl, List.filter_append]
    by_cases hocc : vertAt base e target
    · have hfe : [e].filter (fun i => decide (vertAt base i target)) = [e] := by
        simp [hocc]
      rw [hfe]
      by_cases hnil : l.filter (fun i => decide (vertAt base i target)) = []
      · rw [hnil]
        simp only [List.nil_append]
        unfold locStep attachFormula
        rw [if_pos hocc, if_pos (by simp [attachFormula, hnil])]
        simp
      · have hbocc : ∀ i ∈ l.filter (fun i => decide (vertAt base i target)), i < base.length :=
          fun i hi => hbl i (List.mem_of_mem_filter hi)
        have hlt := attachFormula_lt base.length pass _ hnil hbocc
        unfold locStep
        rw [if_pos hocc, if_neg (by omega)]
        have happne : l.filter (fun i => decide (vertAt base i target)) ++ [e] ≠ [] := by
          simp
        by_cases hp : pass e
        · rw [if_pos hp]
          unfold attachFormula
          rw [if_neg happne, tail_concat_of_ne_nil _ _ hnil, List.filter_append]
          have hfp : [e].filter pass = [e] := by simp [hp]
          rw [hfp]
          rw [if_neg (by simp), getLastI_concat]
        · rw [if_neg hp]
          unfold attachFormula
          rw [if_neg happne, tail_concat_of_ne_nil _ _ hnil, List.filter_append]
          have hfp : [e].filter pass = [] := by simp [hp]
          rw [hfp, List.append_nil, if_neg hnil]
          by_cases h2 : (l.filter (fun i => decide (vertAt base i target))).tail.filter pass = []
          · rw [if_pos h2, if_pos h2, headI_concat_of_ne_nil _ _ hnil]
          · rw [if_neg h2, if_neg h2]
    · have hfe : [e].filter (fun i => decide (vertAt base i target)) = [] := by
        simp [hocc]
      rw [hfe, List.append_nil]
      unfold locStep
      rw [if_neg hocc]

/-- C9 (amended): the endpoint-location scan attaches a path endpoint at the
not-found sentinel N when the endpoint vertex does not occur on the base
loop; otherwise at the last occurrence after the first whose adjacent vertex
passes the internalToAngle test, or at the first occurrence when no later
occurrence passes (the test is never consulted for the first occurrence). -/
theorem c9_attachment_rule (base : List V) (target : V) (pass : ℕ → Bool) :
    locateScan base target pass =
      attachFormula base.length pass (occIdx base target) := by
  rw [locateScan, occIdx]
  exact locScan_spec base target pass (List.range base.length)
    (fun i hi => List.mem_range.mp hi)

/-- C9 (counterexample run): on the bowtie base loop the front vertex of the
path [2,5] occurs at indices 2 and 5; the angular test passes at index 2,
yet the scan attaches the endpoint at index 5, so attachment is not
equivalent to passing the test. -/
theorem c9_not_iff_internal :
    locateScan bowtieBase 2 (passAt bowtieProj bowtieBase bowtiePath) = 5 ∧
    passAt bowtieProj bowtieBase bowtiePath 2 = true ∧
    bowtieBase.count 2 = 2 := by
  exact ⟨by decide, by decide, by decide⟩

end Carve


namespace Carve

/-- The minimum of a list is a member. -/
theorem minV_mem : ∀ {l : List V} {n : V}, minV l = some n → n ∈ l := by
  intro l
  induction l with
  | nil => intro n h; simp [minV] at h
  | cons a t ih =>
    intro n h
    rw [minV] at h
    cases hm : minV t with
    | none =>
      rw [hm] at h
      simp only [Option.some.injEq] at h
      exact h ▸ List.mem_cons_self _ _
    | some b =>
      rw [hm] at h
      simp only [Option.some.injEq] at h
      rcases min_choice a b with hc | hc
      · rw [hc] at h
        exact h ▸ List.mem_cons_self _ _
      · rw [hc] at h
        exact List.mem_cons_of_mem _ (h ▸ ih hm)

/-- The minimum of a non-empty list exists. -/
theorem minV_eq_none_iff : ∀ (l : List V), minV l = none ↔ l = [] := by
  intro l
  cases l with
  | nil => simp [minV]
  | cons a t =>
    simp only [minV]
    cases minV t <;> simp

/-- A neighbour relation witnesses a normalised edge of the remaining
list. -/
theorem neighbors_mem_edge {v b : V} {rem : List (V × V)}
    (hnorm : ∀ e ∈ rem, e.1 < e.2) (h : b ∈ neighbors v rem) :
    orderedEdge v b ∈ rem := by
  rcases List.mem_filterMap.mp h with ⟨⟨x, y⟩, he, hfe⟩
  have hlt : x < y := by simpa using hnorm _ he
  dsimp only at hfe
  by_cases h1 : x = v
  · rw [if_pos h1] at hfe
    have hb : y = b := by simpa using hfe
    rw [orderedEdge, if_pos (show v ≤ b by rw [← h1, ← hb]; exact Nat.le_of_lt hlt)]
    subst h1 hb
    exact he
  · rw [if_neg h1] at hfe
    by_cases h2 : y = v
    · rw [if_pos h2] at hfe
      have hb : x = b := by simpa using hfe
      rw [orderedEdge, if_neg (show ¬ v ≤ b by rw [← h2, ← hb]; exact Nat.not_le.mpr hlt)]
      subst h2 hb
      exact he
    · rw [if_neg h2] at hfe
      simp at hfe

/-- eraseEdge yields a sublist. -/
theorem eraseEdge_sublist : ∀ (l : List (V × V)) (e : V × V),
    List.Sublist (eraseEdge l e) l := by
  intro l e
  induction l with
  | nil => exact List.Sublist.refl _
  | cons f rest ih =>
    rw [eraseEdge]
    by_cases hf : f = e
    · rw [if_pos hf]
      exact List.sublist_cons_self _ _
    · rw [if_neg hf]
      exact List.Sublist.cons₂ _ ih

/-- Replacing an element in front of its erasure is a permutation. -/
theorem perm_cons_eraseEdge : ∀ {l : List (V × V)} {e : V × V}, e ∈ l →
    (e :: eraseEdge l e).Perm l := by
  intro l
  induction l with
  | nil => intro e h; cases h
  | cons f rest ih =>
    intro e h
    rw [eraseEdge]
    by_cases hf : f = e
    · rw [if_pos hf, hf]
    · rw [if_neg hf]
      have he : e ∈ rest := by
        rcases List.mem_cons.mp h with h1 | h1
        · exact absurd h1.symm hf
        · exact h1
      exact (List.Perm.swap f e _).trans (List.Perm.cons f (ih he))

/-- The unordered edges of a two-vertex path. -/
theorem pathPairs_pair (a b : V) : pathPairs [a, b] = [orderedEdge a b] := rfl

/-- The unordered edges of an extended path. -/
theorem pathPairs_cons_cons (a b : V) (t : List V) :
    pathPairs (a :: b :: t) = orderedEdge a b :: pathPairs (b :: t) := rfl

/-- Specification of the path-phase walker: it starts at its start vertex,
and the edges it traverses together with the untouched remainder are a
permutation of the remaining edges. -/
theorem walkP_spec (eps : List V) (start : V) :
    ∀ (f : ℕ) (v : V) (rem : List (V × V)), (∀ e ∈ rem, e.1 < e.2) →
      (∃ t, (walkP eps start f v rem).1 = v :: t) ∧
      (pathPairs (walkP eps start f v rem).1 ++ (walkP eps start f v rem).2).Perm rem ∧
      List.Sublist (walkP eps start f v rem).2 rem := by
  intro f
  induction f with
  | zero =>
    intro v rem _
    exact ⟨⟨[], rfl⟩, by simp [walkP, pathPairs], List.Sublist.refl _⟩
  | succ f ih =>
    intro v rem hnorm
    cases hm : minV (neighbors v rem) with
    | none =>
      simp only [walkP, hm]
      exact ⟨⟨[], rfl⟩, by simp [pathPairs], List.Sublist.refl _⟩
    | some n =>
      have hedge : orderedEdge v n ∈ rem := neighbors_mem_edge hnorm (minV_mem hm)
      have hperm0 : (orderedEdge v n :: eraseEdge rem (orderedEdge v n)).Perm rem :=
        perm_cons_eraseEdge hedge
      have hsubE : List.Sublist (eraseEdge rem (orderedEdge v n)) rem := eraseEdge_sublist _ _
      simp only [walkP, hm]
      by_cases hc : n = start ∨ n ∈ eps ∨ neighbors n (eraseEdge rem (orderedEdge v n)) = []
      · rw [if_pos hc]
        refine ⟨⟨[n], rfl⟩, ?_, hsubE⟩
        rw [pathPairs_pair]
        simpa using hperm0
      · rw [if_neg hc]
        have hnorm' : ∀ e ∈ eraseEdge rem (orderedEdge v n), e.1 < e.2 :=
          fun e he => hnorm e (hsubE.subset he)
        obtain ⟨⟨t, ht⟩, hp, hsub⟩ := ih n (eraseEdge rem (orderedEdge v n)) hnorm'
        refine ⟨⟨(walkP eps start f n (eraseEdge rem (orderedEdge v n))).1, rfl⟩, ?_, hsub.trans hsubE⟩
        rw [ht]
        rw [ht] at hp
        rw [pathPairs_cons_cons]
        refine List.Perm.trans ?_ hperm0
        simpa using List.Perm.cons (orderedEdge v n) hp

/-- Specification of the path phase: the edges of the emitted paths together
with the final remainder are a permutation of the initial remainder. -/
theorem pathPhase_perm :
    ∀ (f : ℕ) (eps : List V) (rem : List (V × V)), (∀ e ∈ rem, e.1 < e.2) →
      (pairsConcat (pathPhase f eps rem).1 ++ (pathPhase f eps rem).2).Perm rem ∧
      List.Sublist (pathPhase f eps rem).2 rem := by
  intro f
  induction f with
  | zero =>
    intro eps rem _
    exact ⟨by simp [pathPhase, pairsConcat], List.Sublist.refl _⟩
  | succ f ih =>
    intro eps rem hnorm
    cases eps with
    | nil => exact ⟨by simp [pathPhase, pairsConcat], List.Sublist.refl _⟩
    | cons v eps' =>
      simp only [pathPhase]
      by_cases hv : neighbors v rem = []
      · rw [if_pos hv]
        exact ih eps' rem hnorm
      · rw [if_neg hv]
        obtain ⟨-, hpw, hsw⟩ := walkP_spec (v :: eps') v rem.length v rem hnorm
        have hnorm' : ∀ e ∈ (walkP (v :: eps') v rem.length v rem).2, e.1 < e.2 :=
          fun e he => hnorm e (hsw.subset he)
        obtain ⟨hpr, hsr⟩ := ih (v :: eps') _ hnorm'
        constructor
        · show (pathPairs (walkP (v :: eps') v rem.length v rem).1 ++
            pairsConcat (pathPhase f (v :: eps') (walkP (v :: eps') v rem.length v rem).2).1 ++
            (pathPhase f (v :: eps') (walkP (v :: eps') v rem.length v rem).2).2).Perm rem
          rw [List.append_assoc]
          exact ((hpr.append_left _).trans hpw)
        · exact hsr.trans hsw

end Carve

namespace Carve

/-- Erasing a present element shortens the list by one. -/
theorem length_eraseEdge_of_mem : ∀ {l : List (V × V)} {e : V × V}, e ∈ l →
    (eraseEdge l e).length + 1 = l.length := by
  intro l
  induction l with
  | nil => intro e h; cases h
  | cons f rest ih =>
    intro e h
    rw [eraseEdge]
    by_cases hf : f = e
    · rw [if_pos hf]
      rfl
    · rw [if_neg hf]
      have he : e ∈ rest := by
        rcases List.mem_cons.mp h with h1 | h1
        · exact absurd h1.symm hf
        · exact h1
      rw [List.length_cons, List.length_cons, ← ih he]

/-- Specification of the loop-phase walker. -/
theorem walkL_spec (start : V) :
    ∀ (f : ℕ) (v : V) (rem : List (V × V)), (∀ e ∈ rem, e.1 < e.2) →
      (pathPairs (walkL start f v rem).1 ++ (walkL start f v rem).2).Perm rem ∧
      List.Sublist (walkL start f v rem).2 rem := by
  intro f
  induction f with
  | zero =>
    intro v rem _
    exact ⟨by simp [walkL, pathPairs], List.Sublist.refl _⟩
  | succ f ih =>
    intro v rem hnorm
    cases hm : minV (neighbors v rem) with
    | none =>
      simp only [walkL, hm]
      exact ⟨by simp [pathPairs], List.Sublist.refl _⟩
    | some n =>
      have hedge : orderedEdge v n ∈ rem := neighbors_mem_edge hnorm (minV_mem hm)
      have hperm0 : (orderedEdge v n :: eraseEdge rem (orderedEdge v n)).Perm rem :=
        perm_cons_eraseEdge hedge
      have hsubE : List.Sublist (eraseEdge rem (orderedEdge v n)) rem := eraseEdge_sublist _ _
      simp only [walkL, hm]
      by_cases hc : n = start
      · rw [if_pos hc]
        refine ⟨?_, hsubE⟩
        rw [pathPairs_pair]
        simpa using hperm0
      · rw [if_neg hc]
        have hnorm' : ∀ e ∈ eraseEdge rem (orderedEdge v n), e.1 < e.2 :=
          fun e he => hnorm e (hsubE.subset he)
        obtain ⟨hp, hsub⟩ := ih n (eraseEdge rem (orderedEdge v n)) hnorm'
        refine ⟨?_, hsub.trans hsubE⟩
        have hhead : ∃ t, (walkL start f n (eraseEdge rem (orderedEdge v n))).1 = n :: t := by
          cases f with
          | zero => exact ⟨[], rfl⟩
          | succ g =>
            cases hm2 : minV (neighbors n (eraseEdge rem (orderedEdge v n))) with
            | none => simp only [walkL, hm2]; exact ⟨[], rfl⟩
            | some m =>
              simp only [walkL, hm2]
              by_cases hc2 : m = start
              · rw [if_pos hc2]; exact ⟨[m], rfl⟩
              · rw [if_neg hc2]; exact ⟨_, rfl⟩
        obtain ⟨t, ht⟩ := hhead
        rw [ht]
        rw [ht] at hp
        rw [pathPairs_cons_cons]
        refine List.Perm.trans ?_ hperm0
        simpa using List.Perm.cons (orderedEdge v n) hp

/-- With fuel available, a loop walk from a vertex that still has an edge
strictly shrinks the remainder. -/
theorem walkL_consumes (start : V) (g : ℕ) (v : V) (rem : List (V × V))
    (hnorm : ∀ e ∈ rem, e.1 < e.2) (hv : neighbors v rem ≠ []) :
    (walkL start (g + 1) v rem).2.length < rem.length := by
  cases hm : minV (neighbors v rem) with
  | none => exact absurd ((minV_eq_none_iff _).mp hm) hv
  | some n =>
    have hedge : orderedEdge v n ∈ rem := neighbors_mem_edge hnorm (minV_mem hm)
    have hlen := length_eraseEdge_of_mem hedge
    have hsubE := eraseEdge_sublist rem (orderedEdge v n)
    simp only [walkL, hm]
    by_cases hc : n = start
    · rw [if_pos hc]
      dsimp only
      omega
    · rw [if_neg hc]
      have hnorm' : ∀ e ∈ eraseEdge rem (orderedEdge v n), e.1 < e.2 :=
        fun e he => hnorm e (hsubE.subset he)
      have hsub := (walkL_spec start g n (eraseEdge rem (orderedEdge v n)) hnorm').2
      have hle := hsub.length_le
      dsimp only
      omega

/-- Vertices of the domain list are exactly those with a neighbour. -/
theorem mem_domainOf {a : V} : ∀ {E : List (V × V)},
    a ∈ domainOf E ↔ ∃ e ∈ E, a = e.1 ∨ a = e.2 := by
  intro E
  induction E with
  | nil => simp [domainOf]
  | cons e t ih =>
    simp only [domainOf, List.foldr_cons] at ih ⊢
    constructor
    · intro h
      rcases List.mem_cons.mp h with h1 | h1
      · exact ⟨e, List.mem_cons_self _ _, Or.inl h1⟩
      · rcases List.mem_cons.mp h1 with h2 | h2
        · exact ⟨e, List.mem_cons_self _ _, Or.inr h2⟩
        · rcases ih.mp h2 with ⟨f, hf, hor⟩
          exact ⟨f, List.mem_cons_of_mem _ hf, hor⟩
    · rintro ⟨f, hf, hor⟩
      rcases List.mem_cons.mp hf with h1 | h1
      · subst h1
        rcases hor with h2 | h2
        · exact h2 ▸ List.mem_cons_self _ _
        · exact List.mem_cons_of_mem _ (h2 ▸ List.mem_cons_self _ _)
      · exact List.mem_cons_of_mem _ (List.mem_cons_of_mem _ (ih.mpr ⟨f, h1, hor⟩))

/-- A vertex of the domain has a non-empty neighbour list. -/
theorem neighbors_ne_nil_of_mem_domain {a : V} {E : List (V × V)}
    (h : a ∈ domainOf E) : neighbors a E ≠ [] := by
  rcases mem_domainOf.mp h with ⟨⟨x, y⟩, he, hor⟩
  by_cases h1 : x = a
  · have : y ∈ neighbors a E := by
      refine List.mem_filterMap.mpr ⟨(x, y), he, ?_⟩
      simp [h1]
    exact List.ne_nil_of_mem this
  · have h2 : y = a := by
      rcases hor with h3 | h3
      · exact absurd h3.symm h1
      · exact h3.symm
    have : x ∈ neighbors a E := by
      refine List.mem_filterMap.mpr ⟨(x, y), he, ?_⟩
      simp [h1, h2]
    exact List.ne_nil_of_mem this

/-- Specification of the loop phase: given sufficient fuel it consumes the
whole remainder, emitting loops whose edges are a permutation of it. -/
theorem loopPhase_spec :
    ∀ (f : ℕ) (rem : List (V × V)), (∀ e ∈ rem, e.1 < e.2) → rem.length ≤ f →
      (pairsConcat (loopPhase f rem)).Perm rem := by
  intro f
  induction f with
  | zero =>
    intro rem _ hlen
    have : rem = [] := List.eq_nil_of_length_eq_zero (by omega)
    subst this
    simp [loopPhase, pairsConcat]
  | succ f ih =>
    intro rem hnorm hlen
    cases hrem : rem with
    | nil => simp [loopPhase, pairsConcat]
    | cons e rest =>
      subst hrem
      have hdom : minVertexOf (e :: rest) ∈ domainOf (e :: rest) := by
        rw [minVertexOf]
        cases hm : minV (domainOf (e :: rest)) with
        | none =>
          have : domainOf (e :: rest) = [] := (minV_eq_none_iff _).mp hm
          rw [domainOf] at this
          simp at this
        | some m =>
          simpa using minV_mem hm
      have hv : neighbors (minVertexOf (e :: rest)) (e :: rest) ≠ [] :=
        neighbors_ne_nil_of_mem_domain hdom
      simp only [loopPhase]
      obtain ⟨hp, hsub⟩ :=
        walkL_spec (minVertexOf (e :: rest)) (e :: rest).length (minVertexOf (e :: rest)) (e :: rest) hnorm
      have hnorm' : ∀ x ∈ (walkL (minVertexOf (e :: rest)) (e :: rest).length (minVertexOf (e :: rest)) (e :: rest)).2, x.1 < x.2 :=
        fun x hx => hnorm x (hsub.subset hx)
      have hcons : (walkL (minVertexOf (e :: rest)) (e :: rest).length (minVertexOf (e :: rest)) (e :: rest)).2.length < (e :: rest).length := by
        have : (e :: rest).length = rest.length + 1 := rfl
        rw [this]
        exact walkL_consumes _ _ _ _ hnorm hv
      have hrec := ih _ hnorm' (by omega)
      show (pathPairs (walkL _ _ _ _).1 ++ pairsConcat (loopPhase f (walkL _ _ _ _).2)).Perm (e :: rest)
      exact ((hrec.append_left _).trans hp)

end Carve

namespace Carve

/-- Membership in the sorted-set insertion. -/
theorem insertV_mem : ∀ (s : List V) (v a : V), a ∈ insertV s v ↔ a = v ∨ a ∈ s := by
  intro s
  induction s with
  | nil => intro v a; simp [insertV]
  | cons w rest ih =>
    intro v a
    rw [insertV]
    by_cases h1 : v = w
    · rw [if_pos h1]
      subst h1
      simp only [List.mem_cons]
      constructor
      · intro h; exact Or.inr h
      · rintro (h | h)
        · exact Or.inl h
        · exact h
    · rw [if_neg h1]
      by_cases h2 : v < w
      · rw [if_pos h2]
        simp only [List.mem_cons]
      · rw [if_neg h2]
        simp only [List.mem_cons, ih v a]
        tauto

/-- Membership after folding degree-based insertions. -/
theorem fold_insert_deg_mem (E : List (V × V)) :
    ∀ (l : List V) (s : List V) (a : V),
      a ∈ l.foldl (fun s v => if degreeIn E v ≠ 2 then insertV s v else s) s ↔
        a ∈ s ∨ (a ∈ l ∧ degreeIn E a ≠ 2) := by
  intro l
  induction l with
  | nil => intro s a; simp
  | cons v t ih =>
    intro s a
    rw [List.foldl_cons]
    by_cases hd : degreeIn E v ≠ 2
    · rw [if_pos hd, ih, insertV_mem]
      constructor
      · rintro ((h | h) | ⟨h1, h2⟩)
        · subst h
          exact Or.inr ⟨List.mem_cons_self _ _, hd⟩
        · exact Or.inl h
        · exact Or.inr ⟨List.mem_cons_of_mem _ h1, h2⟩
      · rintro (h | ⟨h1, h2⟩)
        · exact Or.inl (Or.inr h)
        · rcases List.mem_cons.mp h1 with h3 | h3
          · exact Or.inl (Or.inl h3)
          · exact Or.inr ⟨h3, h2⟩
    · rw [if_neg hd, ih]
      constructor
      · rintro (h | ⟨h1, h2⟩)
        · exact Or.inl h
        · exact Or.inr ⟨List.mem_cons_of_mem _ h1, h2⟩
      · rintro (h | ⟨h1, h2⟩)
        · exact Or.inl h
        · rcases List.mem_cons.mp h1 with h3 | h3
          · subst h3
            exact absurd h2 (by simpa using hd)
          · exact Or.inr ⟨h3, h2⟩

/-- Membership after folding occurrence-based insertions of the extra
endpoints. -/
theorem fold_insert_occ_mem (E : List (V × V)) :
    ∀ (l : List V) (s : List V) (a : V),
      a ∈ l.foldl (fun s v => if neighbors v E ≠ [] then insertV s v else s) s ↔
        a ∈ s ∨ (a ∈ l ∧ neighbors a E ≠ []) := by
  intro l
  induction l with
  | nil => intro s a; simp
  | cons v t ih =>
    intro s a
    rw [List.foldl_cons]
    by_cases hd : neighbors v E ≠ []
    · rw [if_pos hd, ih, insertV_mem]
      constructor
      · rintro ((h | h) | ⟨h1, h2⟩)
        · subst h
          exact Or.inr ⟨List.mem_cons_self _ _, hd⟩
        · exact Or.inl h
        · exact Or.inr ⟨List.mem_cons_of_mem _ h1, h2⟩
      · rintro (h | ⟨h1, h2⟩)
        · exact Or.inl (Or.inr h)
        · rcases List.mem_cons.mp h1 with h3 | h3
          · exact Or.inl (Or.inl h3)
          · exact Or.inr ⟨h3, h2⟩
    · rw [if_neg hd, ih]
      constructor
      · rintro (h | ⟨h1, h2⟩)
        · exact Or.inl h
        · exact Or.inr ⟨List.mem_cons_of_mem _ h1, h2⟩
      · rintro (h | ⟨h1, h2⟩)
        · exact Or.inl h
        · rcases List.mem_cons.mp h1 with h3 | h3
          · subst h3
            exact absurd h2 (by simpa using hd)
          · exact Or.inr ⟨h3, h2⟩

/-- Domain membership coincides with having a neighbour. -/
theorem mem_domain_iff_neighbors {a : V} {E : List (V × V)} :
    a ∈ domainOf E ↔ neighbors a E ≠ [] := by
  constructor
  · exact neighbors_ne_nil_of_mem_domain
  · intro h
    rcases List.exists_mem_of_ne_nil _ h with ⟨b, hb⟩
    rcases List.mem_filterMap.mp hb with ⟨⟨x, y⟩, he, hfe⟩
    dsimp only at hfe
    by_cases h1 : x = a
    · exact mem_domainOf.mpr ⟨(x, y), he, Or.inl h1.symm⟩
    · rw [if_neg h1] at hfe
      by_cases h2 : y = a
      · exact mem_domainOf.mpr ⟨(x, y), he, Or.inr h2.symm⟩
      · rw [if_neg h2] at hfe
        simp at hfe

/-- Characterisation of the endpoint set: a vertex is an endpoint iff it
occurs in the adjacency graph and either its degree differs from 2 or it is
an extra endpoint. -/
theorem endpointsOf_mem (E : List (V × V)) (X : List V) (a : V) :
    a ∈ endpointsOf E X ↔ neighbors a E ≠ [] ∧ (degreeIn E a ≠ 2 ∨ a ∈ X) := by
  rw [endpointsOf]
  rw [fold_insert_occ_mem, fold_insert_deg_mem]
  simp only [List.not_mem_nil, false_or]
  rw [mem_domain_iff_neighbors]
  constructor
  · rintro (⟨h1, h2⟩ | ⟨h1, h2⟩)
    · exact ⟨h1, Or.inl h2⟩
    · exact ⟨h2, Or.inr h1⟩
  · rintro ⟨h1, h2 | h2⟩
    · exact Or.inl ⟨h1, h2⟩
    · exact Or.inr ⟨h2, h1⟩

end Carve

namespace Carve

/-- C6 (amended): a vertex is treated as an endpoint iff it occurs in E's
adjacency map and (its degree in E differs from 2 or it is an extra
endpoint); and every edge of E appears in exactly one output path or output
loop of composeEdgesIntoPaths (the traversed unordered edges of the emitted
paths and loops are a permutation of E, so each edge of the duplicate-free
edge set appears exactly once and nothing else appears). -/
theorem c6_compose_paths (E : List (V × V)) (X : List V)
    (hnorm : ∀ e ∈ E, e.1 < e.2) (hnd : E.Nodup) :
    (∀ v, v ∈ endpointsOf E X ↔
      (neighbors v E ≠ [] ∧ (degreeIn E v ≠ 2 ∨ v ∈ X))) ∧
    (pairsConcat (composeEdgesIntoPaths E X).1 ++
      pairsConcat (composeEdgesIntoPaths E X).2).Perm E ∧
    (pairsConcat (composeEdgesIntoPaths E X).1 ++
      pairsConcat (composeEdgesIntoPaths E X).2).Nodup := by
  have hperm : (pairsConcat (composeEdgesIntoPaths E X).1 ++
      pairsConcat (composeEdgesIntoPaths E X).2).Perm E := by
    unfold composeEdgesIntoPaths
    obtain ⟨hp, hs⟩ :=
      pathPhase_perm (E.length + (endpointsOf E X).length) (endpointsOf E X) E hnorm
    have hnorm2 : ∀ e ∈ (pathPhase (E.length + (endpointsOf E X).length) (endpointsOf E X) E).2,
        e.1 < e.2 := fun e he => hnorm e (hs.subset he)
    have hl := loopPhase_spec
      (pathPhase (E.length + (endpointsOf E X).length) (endpointsOf E X) E).2.length
      (pathPhase (E.length + (endpointsOf E X).length) (endpointsOf E X) E).2
      hnorm2 (le_refl _)
    exact (hl.append_left _).trans hp
  exact ⟨fun v => endpointsOf_mem E X v, hperm, hperm.nodup_iff.mpr hnd⟩

/-- Witness for C6: the two-edge path graph 1-2-3 with extra endpoint 7. -/
theorem c6_compose_paths_witness :
    (pairsConcat (composeEdgesIntoPaths [(1, 2), (2, 3)] [7]).1 ++
      pairsConcat (composeEdgesIntoPaths [(1, 2), (2, 3)] [7]).2).Perm [(1, 2), (2, 3)] :=
  (c6_compose_paths [(1, 2), (2, 3)] [7] (by decide) (by decide)).2.1

/-- C6 (counterexample run): in the graph with the single edge (1,2) and
extra-endpoint list [0], vertex 0 has degree 0 (which differs from 2), yet
the computed endpoint set is exactly [1, 2], so 0 is not treated as an
endpoint; the claimed characterisation without the occurs-in-the-graph
condition on the degree disjunct fails at vertex 0. -/
theorem c6_absent_vertex_not_endpoint :
    endpointsOf [(1, 2)] [0] = [1, 2] ∧
    degreeIn [(1, 2)] 0 = 0 ∧
    (endpointsOf [(1, 2)] [0]).contains 0 = false := by
  exact ⟨by decide, by decide, by decide⟩

end Carve
